import Mathlib

/-!
Verification development for the NIKKE damage / DPS-window engine
(`nikke_dmg.py`).  The Python code is shallowly embedded: floats become
rationals (`ℚ`), timeline values (which may be `±inf`) become the extended
rationals `XR`, dicts with optional keys become structures with `Option`
fields, and code that can raise (`IndexError`, `KeyError`, ...) returns
`Except String`.
-/

/-- Extended timeline values: `-inf`, a finite rational, or `+inf`.
Mirrors Python floats as used for buff/tag/window boundaries (no NaN is
ever produced by the modelled code paths). -/
inductive XR where
  | ninf : XR
  | fin (q : ℚ) : XR
  | pinf : XR
deriving DecidableEq, Repr

namespace XR

/-- Order-embedding of `XR` into `WithBot (WithTop ℚ)`, used to inherit a
computable linear order. -/
def toW : XR → WithBot (WithTop ℚ)
  | ninf => ⊥
  | fin q => ((q : WithTop ℚ) : WithBot (WithTop ℚ))
  | pinf => ((⊤ : WithTop ℚ) : WithBot (WithTop ℚ))

theorem toW_injective : Function.Injective toW := by
  intro a b h
  cases a <;> cases b <;> simp_all [toW]

instance : LinearOrder XR := LinearOrder.lift' toW toW_injective

theorem fin_le_fin {a b : ℚ} : fin a ≤ fin b ↔ a ≤ b := by
  show toW (fin a) ≤ toW (fin b) ↔ a ≤ b
  simp [toW]

theorem fin_lt_fin {a b : ℚ} : fin a < fin b ↔ a < b := by
  show toW (fin a) < toW (fin b) ↔ a < b
  simp [toW]

/-- Addition of a finite rational to an extended value (used for
`start + duration` with a finite `duration`; infinities absorb). -/
def addFin : XR → ℚ → XR
  | ninf, _ => ninf
  | fin q, d => fin (q + d)
  | pinf, _ => pinf

/-- Python `math.isinf` on an extended value. -/
def isInf : XR → Bool
  | ninf => true
  | fin _ => false
  | pinf => true

end XR

/-- A buff record (a Python dict).  Absent dict keys are `none`.  `end_`
stands for the source's `end` key (a Lean keyword).  The four override
flags hold integers; a Python `True` counts as `1` (the source's
`val if isinstance(val, int) else 1` normalisation, noting that Python
`bool` is an `int` subtype so `True` already counts as `1`). -/
structure Buff where
  start : XR
  end_ : XR
  stacks_ : Option ℤ
  attack : Option ℚ
  charge_dmg : Option ℚ
  full_charge_dmg : Option ℚ
  damage_taken : Option ℚ
  element_dmg : Option ℚ
  damage_up : Option ℚ
  defense : Option ℚ
  flat_atk : Option ℚ
  crit_rate : Option ℚ
  crit_dmg : Option ℚ
  core_dmg : Option ℚ
  range_dmg : Option ℚ
  full_burst_dmg : Option ℚ
  core_hit : Option ℤ
  range_bonus : Option ℤ
  full_burst : Option ℤ
  element_bonus : Option ℤ
deriving DecidableEq, Repr

/-- A buff whose only effect key is `attack`, with explicit window:
`{'attack': v, 'start': s, 'end_: e}`. -/
def atkBuff (s e : XR) (v : ℚ) : Buff :=
  ⟨s, e, none, some v, none, none, none, none, none, none, none, none, none,
    none, none, none, none, none, none, none⟩

/-- Source `NIKKE.ModifierCache`: the mutable aggregate of modifier totals. -/
structure Cache where
  attack : ℚ
  charge_dmg : ℚ
  damage_taken : ℚ
  element_dmg : ℚ
  damage_up : ℚ
  defense : ℚ
  flat_atk : ℚ
  crit_rate : ℚ
  crit_dmg : ℚ
  core_dmg : ℚ
  range_dmg : ℚ
  full_burst_dmg : ℚ
  core_hit : ℤ
  range_bonus : ℤ
  full_burst : ℤ
  element_bonus : ℤ
deriving DecidableEq, Repr

namespace Cache

/-- Value of an optional numeric effect scaled by stacks; an absent key
contributes `0` (the source skips the `+=` entirely, same total). -/
def eff (o : Option ℚ) (st : ℚ) : ℚ :=
  match o with
  | some v => v * st
  | none => 0

/-- Contribution of an optional override-flag value (not stack-scaled). -/
def flagEff (o : Option ℤ) : ℤ :=
  match o with
  | some v => v
  | none => 0

/-- Source `ModifierCache.add_buff`.  Note the source folds the buff's
`core_dmg`, `range_dmg` and `full_burst_dmg` keys into the running
`crit_dmg` field (lines 268-273 of `nikke_dmg.py`). -/
def add_buff (c : Cache) (b : Buff) : Cache :=
  let st : ℚ := ((b.stacks_.getD 1 : ℤ) : ℚ)
  { attack := c.attack + eff b.attack st
    charge_dmg := c.charge_dmg + eff b.charge_dmg st +
      (match b.full_charge_dmg with | some v => (v - 100) * st | none => 0)
    damage_taken := c.damage_taken + eff b.damage_taken st
    element_dmg := c.element_dmg + eff b.element_dmg st
    damage_up := c.damage_up + eff b.damage_up st
    defense := c.defense + eff b.defense st
    flat_atk := c.flat_atk + eff b.flat_atk st
    crit_rate := c.crit_rate + eff b.crit_rate st
    crit_dmg := c.crit_dmg + eff b.crit_dmg st + eff b.core_dmg st +
      eff b.range_dmg st + eff b.full_burst_dmg st
    core_dmg := c.core_dmg
    range_dmg := c.range_dmg
    full_burst_dmg := c.full_burst_dmg
    core_hit := c.core_hit + flagEff b.core_hit
    range_bonus := c.range_bonus + flagEff b.range_bonus
    full_burst := c.full_burst + flagEff b.full_burst
    element_bonus := c.element_bonus + flagEff b.element_bonus }

/-- Source `ModifierCache.remove_buff`: subtracts what `add_buff` adds. -/
def remove_buff (c : Cache) (b : Buff) : Cache :=
  let st : ℚ := ((b.stacks_.getD 1 : ℤ) : ℚ)
  { attack := c.attack - eff b.attack st
    charge_dmg := c.charge_dmg - eff b.charge_dmg st -
      (match b.full_charge_dmg with | some v => (v - 100) * st | none => 0)
    damage_taken := c.damage_taken - eff b.damage_taken st
    element_dmg := c.element_dmg - eff b.element_dmg st
    damage_up := c.damage_up - eff b.damage_up st
    defense := c.defense - eff b.defense st
    flat_atk := c.flat_atk - eff b.flat_atk st
    crit_rate := c.crit_rate - eff b.crit_rate st
    crit_dmg := c.crit_dmg - eff b.crit_dmg st - eff b.core_dmg st -
      eff b.range_dmg st - eff b.full_burst_dmg st
    core_dmg := c.core_dmg
    range_dmg := c.range_dmg
    full_burst_dmg := c.full_burst_dmg
    core_hit := c.core_hit - flagEff b.core_hit
    range_bonus := c.range_bonus - flagEff b.range_bonus
    full_burst := c.full_burst - flagEff b.full_burst
    element_bonus := c.element_bonus - flagEff b.element_bonus }

/-- Source `ModifierCache.add_buffs` on a whole list. -/
def add_buffs (c : Cache) (buffs : List Buff) : Cache :=
  buffs.foldl add_buff c

/-- Source `ModifierCache.add_buffs` with a `[start, end)` index range. -/
def add_buffs_range (c : Cache) (buffs : List Buff) (s e : ℕ) : Cache :=
  ((buffs.drop s).take (e - s)).foldl add_buff c

/-- Source `ModifierCache.remove_buffs` with a `[start, end)` index range. -/
def remove_buffs_range (c : Cache) (buffs : List Buff) (s e : ℕ) : Cache :=
  ((buffs.drop s).take (e - s)).foldl remove_buff c

end Cache

/-- The baseline `ModifierCache` that `NIKKE.generate_cache` builds before
adding buffs: modifier array `[100,100,100,110,100,100,0]` and the default
crit / situational percentages, zero flag counters. -/
def baselineCache : Cache :=
  ⟨100, 100, 100, 110, 100, 100, 0, 15, 50, 100, 30, 50, 0, 0, 0, 0⟩

/-- Source `NIKKE.generate_cache` (every modelled call site uses the default
keyword arguments). -/
def generate_cache (buffs : List Buff) : Cache :=
  baselineCache.add_buffs buffs

/-- Source `NIKKE.compute_damage`.  Returns the `(no-crit, crit, average)`
triple.  When `cache` is given, the source deep-copies it and adds
`buffs` on top; otherwise it generates a fresh cache from `buffs`. -/
def compute_damage (damage attack defense : ℚ) (buffs : List Buff)
    (core_hit range_bonus full_burst element_bonus : Bool)
    (cache : Option Cache) : ℚ × ℚ × ℚ :=
  let calcC : Cache :=
    match cache with
    | some c => c.add_buffs buffs
    | none => generate_cache buffs
  let final_atk := attack * calcC.attack / 100
  let target_def := -defense * calcC.defense / 100
  let charge := calcC.charge_dmg / 100
  let taken := calcC.damage_taken / 100
  let element : ℚ :=
    if ¬element_bonus ∧ calcC.element_bonus ≤ 0 then 1 else calcC.element_dmg / 100
  let up := calcC.damage_up / 100
  let base_dmg := (final_atk - target_def + calcC.flat_atk) * charge * taken *
    element * up * damage / 100
  -- Source lines 436-442: the `range_bonus` branch adds the *flag counter*
  -- `calcC.range_bonus / 100`, not `calcC.range_dmg / 100`.
  let base_mod : ℚ :=
    1 + (if core_hit ∨ calcC.core_hit > 0 then calcC.core_dmg / 100 else 0)
      + (if range_bonus ∨ calcC.range_bonus > 0 then (calcC.range_bonus : ℚ) / 100 else 0)
      + (if full_burst ∨ calcC.full_burst > 0 then calcC.full_burst_dmg / 100 else 0)
  let crit_rate_p := min 1 (calcC.crit_rate / 100)
  let crit_dmg_p := max 0 (calcC.crit_dmg / 100)
  let crit_mod := base_mod + crit_dmg_p
  let avg_mod := base_mod * (1 - crit_rate_p) + crit_mod * crit_rate_p
  (base_dmg * base_mod, base_dmg * crit_mod, base_dmg * avg_mod)

/-- Source `NIKKE.get_bonus_tag`. -/
def get_bonus_tag (core_hit range_bonus full_burst element_bonus : Bool) : String :=
  let tag := (if core_hit then "core_" else "")
    ++ (if range_bonus then "range_" else "")
    ++ (if full_burst then "fb_" else "")
    ++ (if element_bonus then "elem_" else "")
  if tag = "" then "base" else tag.dropRight 1

/-- One tag-keyed entry of the damage matrix dictionary. -/
structure MatrixEntry where
  tag : String
  index : ℕ
  base : ℚ
  crit : ℚ
  avg : ℚ
deriving DecidableEq, Repr

/-- Source `NIKKE.compute_damage_matrix`: all 16 flag combinations, iterated
core → range → full burst → element, each flag running `False` then
`True`, numbered by a running index. -/
def compute_damage_matrix (damage attack defense : ℚ) (buffs : List Buff)
    (cache : Option Cache) : List MatrixEntry :=
  let c : Cache :=
    match cache with
    | some c0 => c0.add_buffs buffs
    | none => generate_cache buffs
  let flags := [false, true]
  let combos := flags.flatMap fun ch => flags.flatMap fun rb =>
    flags.flatMap fun fb => flags.map fun eb => (ch, rb, fb, eb)
  combos.enum.map fun p =>
    let i := p.1
    let ch := p.2.1
    let rb := p.2.2.1
    let fb := p.2.2.2.1
    let eb := p.2.2.2.2
    let total := compute_damage damage attack defense [] ch rb fb eb (some c)
    ⟨get_bonus_tag ch rb fb eb, i, total.1, total.2.1, total.2.2⟩

/-- Dictionary lookup by tag label in the damage matrix. -/
def matrixFind (m : List MatrixEntry) (tag : String) : Option MatrixEntry :=
  m.find? fun e => e.tag == tag

/-- Source `NIKKE.matrix_avg_dmg`: weighted sum of `avg` entries; a missing tag
label raises (`KeyError`). -/
def matrix_avg_dmg (m : List MatrixEntry) (tags : List (String × ℚ))
    (normalize : Bool) : Except String ℚ := do
  let acc ← tags.foldlM (fun (acc : ℚ × ℚ) tr =>
    match matrixFind m tr.1 with
    | some e => pure (acc.1 + e.avg * tr.2, acc.2 + tr.2)
    | none => Except.error "KeyError")
    ((0 : ℚ), (0 : ℚ))
  pure (if normalize ∧ acc.2 ≠ 0 then acc.1 / acc.2 else acc.1)

/-- Source `NIKKE.accumulate_avg_dmg`. -/
def accumulate_avg_dmg (damage attack defense : ℚ) (buffs : List Buff)
    (tags : List (String × ℚ)) (normalize : Bool) (cache : Option Cache) :
    Except String ℚ :=
  matrix_avg_dmg (compute_damage_matrix damage attack defense buffs cache) tags normalize


/-- One conditional append of `get_unique_times`: a finite boundary
strictly inside the window that is not already listed gets appended. -/
def gutAdd (window_start window_end : XR) (acc : List ℚ) (v : XR) : List ℚ :=
  match v with
  | XR.fin s =>
      if window_start < XR.fin s ∧ XR.fin s < window_end ∧ s ∉ acc then
        acc ++ [s] else acc
  | _ => acc

/-- Per-buff body of the `get_unique_times` loop: the buff's `start` is
considered first, then its `end`. -/
def gutStep (window_start window_end : XR) (acc : List ℚ) (b : Buff) : List ℚ :=
  gutAdd window_start window_end (gutAdd window_start window_end acc b.start) b.end_

/-- The initial time-point list: the window boundaries, when finite,
appended unconditionally (start first). -/
def gutInit (window_start window_end : XR) : List ℚ :=
  (match window_start with | XR.fin q => [q] | _ => []) ++
  (match window_end with | XR.fin q => [q] | _ => [])

/-- Source `NIKKE.get_unique_times`: the window boundaries (when finite) followed
by every finite buff `start`/`end` lying strictly inside the window that is
not already in the list. -/
def get_unique_times (buffs : List Buff) (window_start window_end : XR) :
    List ℚ :=
  buffs.foldl (gutStep window_start window_end) (gutInit window_start window_end)

/-- Sorting via `np.sort` on the collected (all finite) time points. -/
def sortTimes (l : List ℚ) : List ℚ :=
  l.mergeSort fun a b => a ≤ b

/-- A damage tag (`dmg_tag` dict): multiplier, activity window, and the
label→weight profile. -/
structure DamageTag where
  damage : ℚ
  start : XR
  duration : Option XR
  end_ : Option XR
  tags : List (String × ℚ)

/-- The tag's effective `duration`: `dmg_tag.get('duration', 0)`. -/
def DamageTag.dur (dt : DamageTag) : XR :=
  dt.duration.getD (XR.fin 0)

/-- The tag's effective `end`:
`dmg_tag.get('end', start + duration if not math.isinf(duration) else math.inf)`. -/
def DamageTag.endv (dt : DamageTag) : XR :=
  match dt.end_ with
  | some e => e
  | none =>
      match dt.dur with
      | XR.fin d => dt.start.addFin d
      | _ => XR.pinf

/-- Overlap length `min(end, t_1) - max(start, t_0)` as a rational.  Both callers first
check `¬(start ≥ t_1 ∨ end < t_0)`, which forces the minimum and maximum
to be finite; the catch-all `0` branch is unreachable under that guard. -/
def overlapLen (s e : XR) (t0 t1 : ℚ) : ℚ :=
  match min e (XR.fin t1), max s (XR.fin t0) with
  | XR.fin a, XR.fin b => a - b
  | _, _ => 0

/-- The shared inner loop body of both sweep algorithms (source lines
662-688 and 743-768, which are identical token-for-token): the damage a
single tag accrues over sub-interval `[t0, t1)` against aggregate `c`. -/
def tagWindowDamage (attack defense : ℚ) (normalize : Bool) (c : Cache)
    (t0 t1 : ℚ) (dt : DamageTag) : Except String ℚ :=
  if dt.start ≥ XR.fin t1 ∨ dt.endv < XR.fin t0 then pure 0
  else do
    let total ← accumulate_avg_dmg dt.damage attack defense [] dt.tags normalize (some c)
    let d : ℚ := if dt.dur ≠ XR.fin 0 then overlapLen dt.start dt.endv t0 t1 else 0
    pure (if d > 0 then total * d else total)

/-- One sweep sub-interval's contributions, one entry per damage tag. -/
def windowContribs (damage_tags : List DamageTag) (attack defense : ℚ)
    (normalize : Bool) (c : Cache) (t0 t1 : ℚ) : Except String (List ℚ) :=
  damage_tags.mapM (tagWindowDamage attack defense normalize c t0 t1)

/-- Pointwise `results[i] +=` over the per-tag accumulator vector. -/
def zipAdd (a b : List ℚ) : List ℚ :=
  List.zipWith (· + ·) a b

/-- The `t_0 >= buff['start'] and t_0 < buff['end']` filter predicate of
the quadratic sweep. -/
def activeAt (t : ℚ) (b : Buff) : Bool :=
  decide (XR.fin t ≥ b.start) && decide (XR.fin t < b.end_)

/-- The quadratic sweep's sub-interval builder: walk the sorted time
points, skipping degenerate pairs (`if t_0 >= t_1: continue`). -/
def n2Windows (t0 : ℚ) : List ℚ → List (ℚ × ℚ)
  | [] => []
  | t1 :: rest => if t0 ≥ t1 then n2Windows t0 rest else (t0, t1) :: n2Windows t1 rest

/-- Source `NIKKE.compute_dps_window_n2` with `accumulate=False` (the per-tag
result vector).  An empty time-point list raises (`time_points[0]`). -/
def compute_dps_window_n2 (damage_tags : List DamageTag)
    (attack defense : ℚ) (buffs : List Buff) (window_start window_end : XR)
    (normalize : Bool) : Except String (List ℚ) :=
  match sortTimes (get_unique_times buffs window_start window_end) with
  | [] => Except.error "IndexError"
  | t0 :: rest =>
      (n2Windows t0 (t0 :: rest)).foldlM (fun res w => do
          let cache := generate_cache (buffs.filter (activeAt w.1))
          let cs ← windowContribs damage_tags attack defense normalize cache w.1 w.2
          pure (zipAdd res cs))
        (List.replicate damage_tags.length 0)

/-- Source `NIKKE.compute_dps_window_n2` with `accumulate=True` (`np.sum`). -/
def compute_dps_window_n2_total (damage_tags : List DamageTag)
    (attack defense : ℚ) (buffs : List Buff) (window_start window_end : XR)
    (normalize : Bool) : Except String ℚ :=
  (compute_dps_window_n2 damage_tags attack defense buffs window_start
    window_end normalize).map (·.sum)

/-- The linearithmic sweep's cursor advance: Python's
`while prev_time >= key(buffs[idx]): idx += 1`.  The loop condition reads
`buffs[idx]` *before* any bounds check, so running past the last element
raises `IndexError`. -/
def advanceCursor (key : Buff → XR) (l : List Buff) (t : ℚ) (i : ℕ) :
    Except String ℕ :=
  match h : l[i]? with
  | some b =>
      if key b ≤ XR.fin t then advanceCursor key l t (i + 1) else Except.ok i
  | none => Except.error "IndexError"
termination_by l.length - i
decreasing_by
  have hi : i < l.length := by
    by_contra hge
    rw [List.getElem?_eq_none (Nat.le_of_not_lt hge)] at h
    exact Option.noConfusion h
  omega

/-- The `if idx < len(buffs): while ...` guard around the cursor advance. -/
def stepCursor (key : Buff → XR) (l : List Buff) (t : ℚ) (i : ℕ) :
    Except String ℕ :=
  if i < l.length then advanceCursor key l t i else Except.ok i

/-- One row of `time_windows`/`buff_windows`: the sub-interval `[t0, t1)`
together with its half-open add range `[a0, a1)` into the start-sorted
buffs and remove range `[s0, s1)` into the end-sorted buffs. -/
structure NWin where
  t0 : ℚ
  t1 : ℚ
  a0 : ℕ
  a1 : ℕ
  s0 : ℕ
  s1 : ℕ
deriving DecidableEq, Repr

/-- The linearithmic sweep's window/cursor table builder (source lines
631-649), walking consecutive time points and advancing both cursors to
`prev_time` before recording each row. -/
def buildWindows (addB subB : List Buff) :
    ℚ → List ℚ → ℕ → ℕ → Except String (List NWin)
  | _, [], _, _ => Except.ok []
  | prev, curr :: rest, ai, si => do
      let ai' ← stepCursor (·.start) addB prev ai
      let si' ← stepCursor (·.end_) subB prev si
      let tail ← buildWindows addB subB curr rest ai' si'
      pure (⟨prev, curr, ai, ai', si, si'⟩ :: tail)

/-- Applying one window's add range and remove range to the running
aggregate (source lines 655-659). -/
def cacheStep (addB subB : List Buff) (c : Cache) (w : NWin) : Cache :=
  let c1 := if w.a1 > w.a0 then c.add_buffs_range addB w.a0 w.a1 else c
  if w.s1 > w.s0 then c1.remove_buffs_range subB w.s0 w.s1 else c1

/-- Sorting of the buff list by start time (`sorted(buffs, key=start)`,
a stable sort). -/
def sortByStart (buffs : List Buff) : List Buff :=
  buffs.mergeSort fun a b => decide (a.start ≤ b.start)

/-- Sorting of the buff list by end time (`sorted(buffs, key=end)`). -/
def sortByEnd (buffs : List Buff) : List Buff :=
  buffs.mergeSort fun a b => decide (a.end_ ≤ b.end_)

/-- Source `NIKKE.compute_dps_window_nlogn` with `accumulate=False`.  An empty
time-point list raises (`np.zeros((len(time_points) - 1, 2))` with a
negative dimension). -/
def compute_dps_window_nlogn (damage_tags : List DamageTag)
    (attack defense : ℚ) (buffs : List Buff) (window_start window_end : XR)
    (normalize : Bool) : Except String (List ℚ) :=
  match sortTimes (get_unique_times (sortByStart buffs) window_start window_end) with
  | [] => Except.error "ValueError"
  | t0 :: rest => do
      let wins ← buildWindows (sortByStart buffs) (sortByEnd buffs) t0 rest 0 0
      let st ← wins.foldlM (fun (st : Cache × List ℚ) w => do
          let c' := cacheStep (sortByStart buffs) (sortByEnd buffs) st.1 w
          let cs ← windowContribs damage_tags attack defense normalize c' w.t0 w.t1
          pure (c', zipAdd st.2 cs))
        (generate_cache [], List.replicate damage_tags.length 0)
      pure st.2

/-- Source `NIKKE.compute_dps_window_nlogn` with `accumulate=True`. -/
def compute_dps_window_nlogn_total (damage_tags : List DamageTag)
    (attack defense : ℚ) (buffs : List Buff) (window_start window_end : XR)
    (normalize : Bool) : Except String ℚ :=
  (compute_dps_window_nlogn damage_tags attack defense buffs window_start
    window_end normalize).map (·.sum)

/-! ## Claim theorems -/

/-- C2: the damage-formula scenario.  The claim (and spec §4.1/§8) says
`base_damage = (100000 - 10000) * ... = 90000` and `average = 96750`:
defense is to be *subtracted*.  The code computes
`target_def = -defense * aggregate.defense / 100` and then
`final_atk - target_def`, i.e. it *adds* the defense back
(`100000 + 10000 = 110000`), so the scenario evaluates to base `110000`
and average `118250`, not `90000` / `96750`. -/
theorem claim_C2_scenario_eval :
    compute_damage 100 100000 10000 [] false false false false none =
      (110000, 165000, 118250) := by
  with_unfolding_all rfl

/-- C3: the situational base modifier.  The claim says the range-bonus
branch adds `aggregate.range_dmg / 100` (default `30/100`).  The code's
branch adds the *flag counter* `aggregate.range_bonus / 100` instead
(line 440), so with `range_bonus=True` and the default aggregate the
modifier stays `1` and the result is `(100, 150, 215/2)` rather than the
claimed `(130, 180, ...)`. -/
theorem claim_C3_range_branch_eval :
    compute_damage 100 100 0 [] false true false false none =
      (100, 150, 215 / 2) ∧ baselineCache.range_dmg = 30 :=
  ⟨by with_unfolding_all rfl, rfl⟩

/-- C6: `add_buff` followed by `remove_buff` with the same buff restores
every field of the aggregate exactly (values are rationals, so the
restoration is exact, not merely within an epsilon). -/
theorem claim_C6_add_remove_inverse (c : Cache) (b : Buff) :
    (c.add_buff b).remove_buff b = c := by
  cases c
  simp only [Cache.add_buff, Cache.remove_buff, Cache.mk.injEq]
  and_intros <;> first | ring1 | trivial

/-- C10: `compute_damage_matrix` enumerates all 16 flag combinations in
the fixed nesting order core→range→full burst→element, producing 16
distinct tag labels whose running index is `8*core + 4*range +
2*full_burst + element`, with `"base"` the all-false combination. -/
theorem claim_C10_matrix_completeness (damage attack defense : ℚ)
    (buffs : List Buff) (cache : Option Cache) :
    ((compute_damage_matrix damage attack defense buffs cache).map
        fun e => (e.tag, e.index)) =
      [("base", 0), ("elem", 1), ("fb", 2), ("fb_elem", 3),
       ("range", 4), ("range_elem", 5), ("range_fb", 6), ("range_fb_elem", 7),
       ("core", 8), ("core_elem", 9), ("core_fb", 10), ("core_fb_elem", 11),
       ("core_range", 12), ("core_range_elem", 13), ("core_range_fb", 14),
       ("core_range_fb_elem", 15)] ∧
    ((compute_damage_matrix damage attack defense buffs cache).map
        fun e => e.tag).Nodup ∧
    (∀ ch rb fb eb : Bool,
      (matrixFind (compute_damage_matrix damage attack defense buffs cache)
          (get_bonus_tag ch rb fb eb)).map (fun e => e.index) =
        some (8 * ch.toNat + 4 * rb.toNat + 2 * fb.toNat + eb.toNat)) ∧
    get_bonus_tag false false false false = "base" := by
  refine ⟨by with_unfolding_all rfl, ?_, ?_, by with_unfolding_all rfl⟩
  · have h : ((compute_damage_matrix damage attack defense buffs cache).map
        fun e => e.tag) =
      ["base", "elem", "fb", "fb_elem", "range", "range_elem", "range_fb",
       "range_fb_elem", "core", "core_elem", "core_fb", "core_fb_elem",
       "core_range", "core_range_elem", "core_range_fb",
       "core_range_fb_elem"] := by with_unfolding_all rfl
    rw [h]
    decide
  · intro ch rb fb eb
    cases ch <;> cases rb <;> cases fb <;> cases eb <;> with_unfolding_all rfl

/-- An instantaneous damage tag at `t = 5` with multiplier 100 and a pure
`base` outcome profile. -/
def tagAt5 : DamageTag := ⟨100, XR.fin 5, none, none, [("base", 1)]⟩

/-- A sustained damage tag over `[0, 10)` (duration 10). -/
def sustainedTag : DamageTag := ⟨100, XR.fin 0, some (XR.fin 10), none, [("base", 1)]⟩

/-- An `attack +20` buff active on `[0, 10)`. -/
def buffA : Buff := atkBuff (XR.fin 0) (XR.fin 10) 20

/-- An `attack +5` buff active on `[10, 12)`, i.e. outside the window
`[0, 10)`; it keeps the linearithmic sweep's cursors in bounds. -/
def buffSentinel : Buff := atkBuff (XR.fin 10) (XR.fin 12) 5

/-- An always-on buff: `start = -inf`, `end = +inf`. -/
def buffInf : Buff := atkBuff XR.ninf XR.pinf 20

/-- C5: the cursor-advance loops *do* index past the end of the sorted
buff lists.  With the single well-formed buff `start=-inf, end=+inf`,
window `[0, 10]`, the add-cursor's `while prev_time >= start` advances
past the lone element and its next condition read raises `IndexError`,
so `compute_dps_window_nlogn` does not run to completion; the quadratic
sweep on the same input returns normally. -/
theorem claim_C5_cursor_overrun :
    compute_dps_window_nlogn [tagAt5] 100 0 [buffInf] (XR.fin 0) (XR.fin 10) true =
      Except.error "IndexError" ∧
    compute_dps_window_n2 [tagAt5] 100 0 [buffInf] (XR.fin 0) (XR.fin 10) true =
      Except.ok [129] ∧
    buffInf.start < buffInf.end_ :=
  ⟨by with_unfolding_all rfl, by with_unfolding_all rfl, by decide⟩

/-- C1 counterexample: with no buffs, a zero-width window
`window_start = window_end = 5` and one sustained tag over `[0, 10)`,
the linearithmic sweep still evaluates the degenerate sub-interval
`[5, 5)` (overlap 0 falls into the unscaled `else` branch) and returns
`215`, while the quadratic sweep skips it and returns `0` — the two
algorithms disagree, for both result shapes. -/
theorem claim_C1_counterexample :
    compute_dps_window_nlogn [sustainedTag] 200 0 [] (XR.fin 5) (XR.fin 5) true =
      Except.ok [215] ∧
    compute_dps_window_n2 [sustainedTag] 200 0 [] (XR.fin 5) (XR.fin 5) true =
      Except.ok [0] ∧
    compute_dps_window_nlogn_total [sustainedTag] 200 0 [] (XR.fin 5) (XR.fin 5) true =
      Except.ok 215 ∧
    compute_dps_window_n2_total [sustainedTag] 200 0 [] (XR.fin 5) (XR.fin 5) true =
      Except.ok 0 ∧
    (Except.ok [(215 : ℚ)] : Except String (List ℚ)) ≠ Except.ok [(0 : ℚ)] :=
  ⟨by with_unfolding_all rfl, by with_unfolding_all rfl,
   by with_unfolding_all rfl, by with_unfolding_all rfl, by simp⟩

/-- C7 counterexample: with a zero-width window at `t = 5` and an
instantaneous tag exactly at that point, the quadratic sweep returns `0`,
although the tag's full average damage there is `215 ≠ 0` — the
instantaneous tag does *not* contribute. -/
theorem claim_C7_counterexample :
    compute_dps_window_n2 [tagAt5] 200 0 [] (XR.fin 5) (XR.fin 5) true =
      Except.ok [0] ∧
    accumulate_avg_dmg 100 200 0 [] [("base", 1)] true (some (generate_cache [])) =
      Except.ok 215 ∧
    (215 : ℚ) ≠ 0 :=
  ⟨by with_unfolding_all rfl, by with_unfolding_all rfl, by norm_num⟩

theorem gutAdd_zero_width (w : ℚ) (acc : List ℚ) (v : XR) :
    gutAdd (XR.fin w) (XR.fin w) acc v = acc := by
  unfold gutAdd
  cases v with
  | fin s =>
      refine if_neg ?_
      rintro ⟨h1, h2, -⟩
      exact absurd (h1.trans h2) (lt_irrefl _)
  | ninf => rfl
  | pinf => rfl

theorem get_unique_times_zero_width (buffs : List Buff) (w : ℚ) :
    get_unique_times buffs (XR.fin w) (XR.fin w) = [w, w] := by
  unfold get_unique_times
  suffices h : ∀ acc : List ℚ,
      buffs.foldl (gutStep (XR.fin w) (XR.fin w)) acc = acc by
    rw [h]
    rfl
  intro acc
  induction buffs generalizing acc with
  | nil => rfl
  | cons b bs ih =>
      rw [List.foldl_cons, gutStep, gutAdd_zero_width, gutAdd_zero_width, ih]

theorem sortTimes_pair (w : ℚ) : sortTimes [w, w] = [w, w] := by
  have hp := List.mergeSort_perm [w, w] (fun a b : ℚ => a ≤ b)
  have : sortTimes [w, w] = List.replicate 2 w :=
    List.perm_replicate.mp (by simpa [sortTimes] using hp)
  simpa using this

/-- C7 (amended): a zero-width analysis window produces 0 total damage
for *every* damage tag in the quadratic sweep — sustained or
instantaneous.  The duplicate boundary point collapses to no
sub-interval at all (`if t_0 >= t_1: continue`), so no tag, not even one
starting exactly at that point, is ever evaluated. -/
theorem claim_C7_amended (damage_tags : List DamageTag)
    (attack defense : ℚ) (buffs : List Buff) (normalize : Bool) (w : ℚ) :
    compute_dps_window_n2 damage_tags attack defense buffs
        (XR.fin w) (XR.fin w) normalize =
      Except.ok (List.replicate damage_tags.length 0) := by
  unfold compute_dps_window_n2
  rw [get_unique_times_zero_width, sortTimes_pair]
  have hwin : n2Windows w [w, w] = [] := by
    unfold n2Windows
    rw [if_pos (le_refl w)]
    unfold n2Windows
    rw [if_pos (le_refl w)]
    rfl
  show List.foldlM _ _ (n2Windows w [w, w]) = _
  rw [hwin]
  rfl

/-- C8 counterexample: a weight map whose weights sum to zero without all
being zero.  `matrix_avg_dmg` skips the division but returns the raw
weighted sum `-200`, not the claimed `0`. -/
theorem claim_C8_counterexample :
    matrix_avg_dmg (compute_damage_matrix 100 200 0 [] none)
        [("base", 1), ("core", -1)] true = Except.ok (-200) ∧
    (1 : ℚ) + -1 = 0 ∧ (-200 : ℚ) ≠ 0 :=
  ⟨by with_unfolding_all rfl, by norm_num, by norm_num⟩

/-- Running weighted-sum/weight-total accumulator of `matrix_avg_dmg`'s
loop, as closed-form list sums. -/
theorem matrix_avg_fold_eq (m : List MatrixEntry) (tags : List (String × ℚ))
    (h : ∀ p ∈ tags, (matrixFind m p.1).isSome) (acc : ℚ × ℚ) :
    tags.foldlM (fun (acc : ℚ × ℚ) tr =>
        match matrixFind m tr.1 with
        | some e => pure (acc.1 + e.avg * tr.2, acc.2 + tr.2)
        | none => Except.error "KeyError") acc =
      Except.ok
        (acc.1 + (tags.map fun p =>
            (((matrixFind m p.1).map fun e => e.avg).getD 0) * p.2).sum,
         acc.2 + (tags.map fun p => p.2).sum) := by
  induction tags generalizing acc with
  | nil => simp; rfl
  | cons q qs ih =>
      obtain ⟨e, he⟩ := Option.isSome_iff_exists.mp (h q (by simp))
      have hq : ∀ p ∈ qs, (matrixFind m p.1).isSome := fun p hp => h p (by simp [hp])
      rw [List.foldlM_cons, he, pure_bind, ih hq]
      simp only [List.map_cons, List.sum_cons, he]
      refine congrArg Except.ok ?_
      refine Prod.ext ?_ ?_ <;> simp <;> ring

/-- C8 (amended): `matrix_avg_dmg` over a weight map whose labels are all
present returns the weighted sum of the `avg` entries, divided by the
weight total exactly when `normalize` is true *and* the total is nonzero;
when the weights sum to zero the division is skipped and the raw weighted
sum is returned (which is `0` only if the weighted sum itself is `0`). -/
theorem claim_C8_amended (m : List MatrixEntry) (tags : List (String × ℚ))
    (normalize : Bool) (h : ∀ p ∈ tags, (matrixFind m p.1).isSome) :
    matrix_avg_dmg m tags normalize =
      Except.ok
        (if normalize ∧ (tags.map fun p => p.2).sum ≠ 0 then
          (tags.map fun p =>
            (((matrixFind m p.1).map fun e => e.avg).getD 0) * p.2).sum /
            (tags.map fun p => p.2).sum
        else
          (tags.map fun p =>
            (((matrixFind m p.1).map fun e => e.avg).getD 0) * p.2).sum) := by
  unfold matrix_avg_dmg
  rw [matrix_avg_fold_eq m tags h (0, 0)]
  simp [Except.bind]

/-- C8 witness instantiation data. -/
theorem claim_C8_witness :
    matrix_avg_dmg (compute_damage_matrix 100 200 0 [] none)
        [("base", 2)] true = Except.ok 215 := by
  rw [claim_C8_amended (compute_damage_matrix 100 200 0 [] none)
    [("base", 2)] true (by intro p hp; fin_cases hp; with_unfolding_all rfl)]
  with_unfolding_all rfl

/-- The 16 canonical outcome-matrix labels, in matrix order. -/
def canonicalLabels : List String :=
  ["base", "elem", "fb", "fb_elem", "range", "range_elem", "range_fb",
   "range_fb_elem", "core", "core_elem", "core_fb", "core_fb_elem",
   "core_range", "core_range_elem", "core_range_fb", "core_range_fb_elem"]

/-- The matrix's tag labels are exactly the canonical 16, independent of
the numeric inputs. -/
theorem matrix_tags_eq (damage attack defense : ℚ) (buffs : List Buff)
    (cache : Option Cache) :
    ((compute_damage_matrix damage attack defense buffs cache).map
      fun e => e.tag) = canonicalLabels := by
  with_unfolding_all rfl

theorem matrixFind_eq_none_of_not_canonical (damage attack defense : ℚ)
    (buffs : List Buff) (cache : Option Cache) (s : String)
    (hs : s ∉ canonicalLabels) :
    matrixFind (compute_damage_matrix damage attack defense buffs cache) s = none := by
  rw [matrixFind, List.find?_eq_none]
  intro e he hbeq
  apply hs
  rw [← matrix_tags_eq damage attack defense buffs cache]
  have : e.tag = s := by simpa using hbeq
  exact this ▸ List.mem_map_of_mem (fun e => e.tag) he

theorem fold_error_of_missing (m : List MatrixEntry) :
    ∀ (tags : List (String × ℚ)) (acc : ℚ × ℚ),
    (∃ p ∈ tags, matrixFind m p.1 = none) →
    tags.foldlM (fun (acc : ℚ × ℚ) tr =>
        match matrixFind m tr.1 with
        | some e => pure (acc.1 + e.avg * tr.2, acc.2 + tr.2)
        | none => Except.error "KeyError") acc =
      Except.error "KeyError"
  | [], _, h => by simp at h
  | q :: qs, acc, h => by
      rw [List.foldlM_cons]
      cases hq : matrixFind m q.1 with
      | none => rfl
      | some e =>
          simp only [pure_bind]
          apply fold_error_of_missing m qs
          obtain ⟨p, hp, hnone⟩ := h
          rcases List.mem_cons.mp hp with rfl | hmem
          · exact absurd hnone (by simp [hq])
          · exact ⟨p, hmem, hnone⟩

/-- C9: a damage-tag weight map containing a label outside the 16
canonical matrix labels makes `matrix_avg_dmg` — and therefore
`accumulate_avg_dmg` — fail fast with an error instead of contributing a
silent zero. -/
theorem claim_C9_unknown_label_fails (damage attack defense : ℚ)
    (buffs : List Buff) (cache : Option Cache) (tags : List (String × ℚ))
    (normalize : Bool) (h : ∃ p ∈ tags, p.1 ∉ canonicalLabels) :
    matrix_avg_dmg (compute_damage_matrix damage attack defense buffs cache)
        tags normalize = Except.error "KeyError" ∧
    accumulate_avg_dmg damage attack defense buffs tags normalize cache =
      Except.error "KeyError" := by
  have herr : matrix_avg_dmg (compute_damage_matrix damage attack defense buffs cache)
      tags normalize = Except.error "KeyError" := by
    unfold matrix_avg_dmg
    rw [fold_error_of_missing _ tags (0, 0) ?_]
    · rfl
    · obtain ⟨p, hp, hnc⟩ := h
      exact ⟨p, hp, matrixFind_eq_none_of_not_canonical damage attack defense
        buffs cache p.1 hnc⟩
  exact ⟨herr, herr⟩

/-- C9 witness: the concrete unknown label `"bogus"`. -/
theorem claim_C9_witness :
    ((("bogus", (1 : ℚ)).1 ∉ canonicalLabels) ∧
      accumulate_avg_dmg 100 200 0 [] [("bogus", 1)] true none =
        Except.error "KeyError") := by
  refine ⟨by decide, ?_⟩
  exact (claim_C9_unknown_label_fails 100 200 0 [] none [("bogus", 1)] true
    ⟨("bogus", 1), by simp, by decide⟩).2

/-! ## Aggregate algebra: caches as baseline plus a sum of buff deltas -/

/-- The per-field contribution vector of a buff (what one `add_buff`
adds, and one `remove_buff` subtracts). -/
structure Delta where
  attack : ℚ
  charge_dmg : ℚ
  damage_taken : ℚ
  element_dmg : ℚ
  damage_up : ℚ
  defense : ℚ
  flat_atk : ℚ
  crit_rate : ℚ
  crit_dmg : ℚ
  core_dmg : ℚ
  range_dmg : ℚ
  full_burst_dmg : ℚ
  core_hit : ℤ
  range_bonus : ℤ
  full_burst : ℤ
  element_bonus : ℤ
deriving DecidableEq, Repr

namespace Delta

def add (a b : Delta) : Delta :=
  ⟨a.attack + b.attack, a.charge_dmg + b.charge_dmg,
   a.damage_taken + b.damage_taken, a.element_dmg + b.element_dmg,
   a.damage_up + b.damage_up, a.defense + b.defense,
   a.flat_atk + b.flat_atk, a.crit_rate + b.crit_rate,
   a.crit_dmg + b.crit_dmg, a.core_dmg + b.core_dmg,
   a.range_dmg + b.range_dmg, a.full_burst_dmg + b.full_burst_dmg,
   a.core_hit + b.core_hit, a.range_bonus + b.range_bonus,
   a.full_burst + b.full_burst, a.element_bonus + b.element_bonus⟩

def neg (a : Delta) : Delta :=
  ⟨-a.attack, -a.charge_dmg, -a.damage_taken, -a.element_dmg,
   -a.damage_up, -a.defense, -a.flat_atk, -a.crit_rate, -a.crit_dmg,
   -a.core_dmg, -a.range_dmg, -a.full_burst_dmg, -a.core_hit,
   -a.range_bonus, -a.full_burst, -a.element_bonus⟩

instance : Zero Delta := ⟨⟨0, 0, 0, 0, 0, 0, 0, 0, 0, 0, 0, 0, 0, 0, 0, 0⟩⟩

instance : Add Delta := ⟨add⟩

instance : Neg Delta := ⟨neg⟩

theorem add_def (a b : Delta) : a + b = add a b := rfl

theorem neg_def (a : Delta) : -a = neg a := rfl

theorem zero_def : (0 : Delta) = ⟨0, 0, 0, 0, 0, 0, 0, 0, 0, 0, 0, 0, 0, 0, 0, 0⟩ := rfl

instance : AddCommGroup Delta where
  nsmul := nsmulRec
  zsmul := zsmulRec
  add_assoc a b c := by
    cases a; cases b; cases c
    simp only [add_def, add, mk.injEq]
    and_intros <;> ring1
  zero_add a := by
    cases a
    simp only [zero_def, add_def, add, mk.injEq]
    and_intros <;> ring1
  add_zero a := by
    cases a
    simp only [zero_def, add_def, add, mk.injEq]
    and_intros <;> ring1
  add_comm a b := by
    cases a; cases b
    simp only [add_def, add, mk.injEq]
    and_intros <;> ring1
  neg_add_cancel a := by
    cases a
    simp only [zero_def, add_def, neg_def, add, neg, mk.injEq]
    and_intros <;> ring1

end Delta

/-- Adding a delta to a cache, fieldwise. -/
def applyDelta (c : Cache) (d : Delta) : Cache :=
  ⟨c.attack + d.attack, c.charge_dmg + d.charge_dmg,
   c.damage_taken + d.damage_taken, c.element_dmg + d.element_dmg,
   c.damage_up + d.damage_up, c.defense + d.defense,
   c.flat_atk + d.flat_atk, c.crit_rate + d.crit_rate,
   c.crit_dmg + d.crit_dmg, c.core_dmg + d.core_dmg,
   c.range_dmg + d.range_dmg, c.full_burst_dmg + d.full_burst_dmg,
   c.core_hit + d.core_hit, c.range_bonus + d.range_bonus,
   c.full_burst + d.full_burst, c.element_bonus + d.element_bonus⟩

/-- The delta contributed by one buff (matching `add_buff`, including the
crit-field folding of the `core/range/full-burst` keys). -/
def buffDelta (b : Buff) : Delta :=
  let st : ℚ := ((b.stacks_.getD 1 : ℤ) : ℚ)
  ⟨Cache.eff b.attack st,
   Cache.eff b.charge_dmg st +
     (match b.full_charge_dmg with | some v => (v - 100) * st | none => 0),
   Cache.eff b.damage_taken st,
   Cache.eff b.element_dmg st,
   Cache.eff b.damage_up st,
   Cache.eff b.defense st,
   Cache.eff b.flat_atk st,
   Cache.eff b.crit_rate st,
   Cache.eff b.crit_dmg st + Cache.eff b.core_dmg st +
     Cache.eff b.range_dmg st + Cache.eff b.full_burst_dmg st,
   0, 0, 0,
   Cache.flagEff b.core_hit,
   Cache.flagEff b.range_bonus,
   Cache.flagEff b.full_burst,
   Cache.flagEff b.element_bonus⟩

theorem add_buff_eq_applyDelta (c : Cache) (b : Buff) :
    c.add_buff b = applyDelta c (buffDelta b) := by
  cases c
  simp only [Cache.add_buff, applyDelta, buffDelta, Cache.mk.injEq]
  and_intros <;> first | ring1 | trivial

theorem remove_buff_eq_applyDelta (c : Cache) (b : Buff) :
    c.remove_buff b = applyDelta c (-buffDelta b) := by
  cases c
  simp only [Cache.remove_buff, applyDelta, buffDelta, Delta.neg_def,
    Delta.neg, Cache.mk.injEq]
  and_intros <;> ring1

theorem applyDelta_zero (c : Cache) : applyDelta c 0 = c := by
  cases c
  simp only [applyDelta, Delta.zero_def, Cache.mk.injEq]
  and_intros <;> ring1

theorem applyDelta_applyDelta (c : Cache) (d d' : Delta) :
    applyDelta (applyDelta c d) d' = applyDelta c (d + d') := by
  cases c; cases d; cases d'
  simp only [applyDelta, Delta.add_def, Delta.add, Cache.mk.injEq]
  and_intros <;> ring1

/-- Total delta of a buff list. -/
def deltaSum (l : List Buff) : Delta :=
  (l.map buffDelta).sum

theorem deltaSum_nil : deltaSum [] = 0 := rfl

theorem deltaSum_cons (b : Buff) (l : List Buff) :
    deltaSum (b :: l) = buffDelta b + deltaSum l := by
  simp [deltaSum]

theorem deltaSum_append (l1 l2 : List Buff) :
    deltaSum (l1 ++ l2) = deltaSum l1 + deltaSum l2 := by
  simp [deltaSum]

theorem deltaSum_perm {l1 l2 : List Buff} (h : l1.Perm l2) :
    deltaSum l1 = deltaSum l2 :=
  (h.map buffDelta).sum_eq

theorem foldl_add_buff_eq (l : List Buff) (c : Cache) :
    l.foldl Cache.add_buff c = applyDelta c (deltaSum l) := by
  induction l generalizing c with
  | nil => rw [List.foldl_nil, deltaSum_nil, applyDelta_zero]
  | cons b bs ih =>
      rw [List.foldl_cons, ih, add_buff_eq_applyDelta,
        applyDelta_applyDelta, deltaSum_cons]

theorem foldl_remove_buff_eq (l : List Buff) (c : Cache) :
    l.foldl Cache.remove_buff c = applyDelta c (-deltaSum l) := by
  induction l generalizing c with
  | nil => rw [List.foldl_nil, deltaSum_nil, neg_zero, applyDelta_zero]
  | cons b bs ih =>
      rw [List.foldl_cons, ih, remove_buff_eq_applyDelta,
        applyDelta_applyDelta, deltaSum_cons, neg_add]

theorem generate_cache_eq (l : List Buff) :
    generate_cache l = applyDelta baselineCache (deltaSum l) :=
  foldl_add_buff_eq l baselineCache

theorem add_buffs_range_eq (c : Cache) (l : List Buff) (s e : ℕ) :
    c.add_buffs_range l s e = applyDelta c (deltaSum ((l.drop s).take (e - s))) :=
  foldl_add_buff_eq _ c

theorem remove_buffs_range_eq (c : Cache) (l : List Buff) (s e : ℕ) :
    c.remove_buffs_range l s e = applyDelta c (-deltaSum ((l.drop s).take (e - s))) :=
  foldl_remove_buff_eq _ c

/-! ## Sorted-prefix and filter lemmas -/

/-- If a predicate holds exactly on the first `i` positions of a list,
the first `i` elements are precisely the filtered list. -/
theorem take_eq_filter_of_iff {α : Type} (p : α → Bool) :
    ∀ (l : List α) (i : ℕ), i ≤ l.length →
      (∀ j (hj : j < l.length), (j < i ↔ p (l.get ⟨j, hj⟩))) →
      l.take i = l.filter p
  | [], i, _, _ => by simp
  | x :: xs, 0, _, h => by
      have hx : ∀ j (hj : j < (x :: xs).length), ¬ p ((x :: xs).get ⟨j, hj⟩) := by
        intro j hj hp
        exact absurd ((h j hj).mpr hp) (Nat.not_lt_zero j)
      have : ∀ a ∈ x :: xs, ¬ p a := by
        intro a ha
        obtain ⟨⟨j, hj⟩, rfl⟩ := List.mem_iff_get.mp ha
        exact hx j hj
      rw [List.take_zero, eq_comm, List.filter_eq_nil_iff]
      exact fun a ha => this a ha
  | x :: xs, i + 1, hlen, h => by
      have hx : p x := (h 0 (by omega)).mp (by omega)
      have htail : xs.take i = xs.filter p := by
        refine take_eq_filter_of_iff p xs i (Nat.le_of_succ_le_succ hlen) ?_
        intro j hj
        have := h (j + 1) (Nat.succ_lt_succ hj)
        simpa [Nat.succ_lt_succ_iff] using this
      rw [List.take_succ_cons, List.filter_cons_of_pos hx, htail]

/-- Splitting a filtered delta sum along a second predicate. -/
theorem deltaSum_filter_split (p q : Buff → Bool) (l : List Buff) :
    deltaSum (l.filter p) =
      deltaSum (l.filter fun b => p b && q b) +
      deltaSum (l.filter fun b => p b && !q b) := by
  induction l with
  | nil => simp [deltaSum_nil]
  | cons b bs ih =>
      by_cases hp : p b
      · by_cases hq : q b
        · rw [List.filter_cons_of_pos hp,
            List.filter_cons_of_pos (by simp [hp, hq]),
            List.filter_cons_of_neg (by simp [hp, hq]),
            deltaSum_cons, deltaSum_cons, ih, add_assoc]
        · rw [List.filter_cons_of_pos hp,
            List.filter_cons_of_neg (by simp [hp, hq]),
            List.filter_cons_of_pos (by simp [hp, hq]),
            deltaSum_cons, deltaSum_cons, ih, add_left_comm]
      · rw [List.filter_cons_of_neg hp,
          List.filter_cons_of_neg (by simp [hp]),
          List.filter_cons_of_neg (by simp [hp]), ih]

/-! ## Cursor invariants for the linearithmic sweep -/

/-- Before an advance at time `t`: every element strictly below the
cursor has key `≤ t`. -/
def CursorPre (key : Buff → XR) (l : List Buff) (t : ℚ) (i : ℕ) : Prop :=
  i ≤ l.length ∧ ∀ j (hj : j < l.length), j < i → key (l.get ⟨j, hj⟩) ≤ XR.fin t

/-- After an advance at time `t`: the cursor position characterises the
keys `≤ t` exactly. -/
def CursorInv (key : Buff → XR) (l : List Buff) (t : ℚ) (i : ℕ) : Prop :=
  i ≤ l.length ∧ ∀ j (hj : j < l.length), (j < i ↔ key (l.get ⟨j, hj⟩) ≤ XR.fin t)

theorem CursorInv.toPre {key : Buff → XR} {l : List Buff} {t t' : ℚ} {i : ℕ}
    (h : CursorInv key l t i) (htt : t ≤ t') : CursorPre key l t' i :=
  ⟨h.1, fun j hj hji =>
    le_trans ((h.2 j hj).mp hji) (XR.fin_le_fin.mpr htt)⟩

theorem advanceCursor_ok_aux (key : Buff → XR) (l : List Buff)
    (hsort : l.Pairwise fun a b => key a ≤ key b) (t : ℚ) :
    ∀ (n i i' : ℕ), l.length - i ≤ n → CursorPre key l t i →
      advanceCursor key l t i = Except.ok i' →
      CursorInv key l t i' ∧ i ≤ i' := by
  intro n
  induction n with
  | zero =>
      intro i i' hle hpre hok
      unfold advanceCursor at hok
      split at hok
      · next b heq =>
          obtain ⟨hlt, -⟩ := List.getElem?_eq_some.mp heq
          omega
      · exact absurd hok (by simp)
  | succ n ih =>
      intro i i' hle hpre hok
      unfold advanceCursor at hok
      split at hok
      · next b heq =>
          obtain ⟨hlt, hbv⟩ := List.getElem?_eq_some.mp heq
          split at hok
          · next hbt =>
              have hpre' : CursorPre key l t (i + 1) := by
                refine ⟨hlt, fun j hj hji => ?_⟩
                rcases Nat.lt_succ_iff_lt_or_eq.mp hji with hj2 | rfl
                · exact hpre.2 j hj hj2
                · simpa [List.get_eq_getElem, hbv] using hbt
              obtain ⟨hinv, hle2⟩ := ih (i + 1) i' (by omega) hpre' hok
              exact ⟨hinv, by omega⟩
          · next hbt =>
              cases hok
              refine ⟨⟨Nat.le_of_lt hlt, fun j hj => ⟨fun hji => hpre.2 j hj hji, ?_⟩⟩,
                le_rfl⟩
              intro hkey
              by_contra hji
              have hij : i ≤ j := Nat.le_of_not_lt hji
              have hbj : key b ≤ key (l.get ⟨j, hj⟩) := by
                rcases Nat.lt_or_ge i j with hij2 | hij2
                · have := (List.pairwise_iff_get.mp hsort) ⟨i, hlt⟩ ⟨j, hj⟩ hij2
                  simpa [List.get_eq_getElem, hbv] using this
                · have : i = j := by omega
                  subst this
                  simp [List.get_eq_getElem, hbv]
              exact hbt (le_trans hbj hkey)
      · exact absurd hok (by simp)

theorem stepCursor_ok {key : Buff → XR} {l : List Buff} {t : ℚ} {i i' : ℕ}
    (hsort : l.Pairwise fun a b => key a ≤ key b)
    (hpre : CursorPre key l t i)
    (hok : stepCursor key l t i = Except.ok i') :
    CursorInv key l t i' ∧ i ≤ i' := by
  unfold stepCursor at hok
  split at hok
  · exact advanceCursor_ok_aux key l hsort t (l.length - i) i i' le_rfl hpre hok
  · next hge =>
      cases hok
      have hlen : i = l.length := le_antisymm hpre.1 (Nat.le_of_not_lt hge)
      refine ⟨⟨hpre.1, fun j hj => ⟨fun hji => hpre.2 j hj hji, fun _ => ?_⟩⟩, le_rfl⟩
      omega

theorem except_bind_ok {α β : Type} (x : α) (f : α → Except String β) :
    (Except.ok x >>= f) = f x := rfl

theorem except_bind_error {α β : Type} (e : String) (f : α → Except String β) :
    ((Except.error e : Except String α) >>= f) = Except.error e := rfl

/-- Well-formedness of the window/cursor table relative to the incoming
cursor positions: ranges chain, and each window's outgoing cursors
characterise exactly the buffs with `start ≤ t0` (resp. `end ≤ t0`). -/
def WinsOK (addB subB : List Buff) : List NWin → ℕ → ℕ → Prop
  | [], _, _ => True
  | w :: ws, ai, si =>
      w.a0 = ai ∧ w.s0 = si ∧ ai ≤ w.a1 ∧ si ≤ w.s1 ∧
      CursorInv (fun b => b.start) addB w.t0 w.a1 ∧
      CursorInv (fun b => b.end_) subB w.t0 w.s1 ∧
      WinsOK addB subB ws w.a1 w.s1

theorem buildWindows_ok (addB subB : List Buff)
    (hsa : addB.Pairwise fun a b => a.start ≤ b.start)
    (hse : subB.Pairwise fun a b => a.end_ ≤ b.end_) :
    ∀ (rest : List ℚ) (prev : ℚ) (ai si : ℕ) (wins : List NWin),
      List.Pairwise (· ≤ ·) (prev :: rest) →
      CursorPre (fun b => b.start) addB prev ai →
      CursorPre (fun b => b.end_) subB prev si →
      buildWindows addB subB prev rest ai si = Except.ok wins →
      WinsOK addB subB wins ai si := by
  intro rest
  induction rest with
  | nil =>
      intro prev ai si wins _ _ _ hok
      cases hok
      trivial
  | cons curr rest' ih =>
      intro prev ai si wins hpw hpa hps hok
      unfold buildWindows at hok
      cases hea : stepCursor (fun b => b.start) addB prev ai with
      | error e => rw [hea, except_bind_error] at hok; exact absurd hok (by simp)
      | ok ai' =>
          rw [hea, except_bind_ok] at hok
          cases hes : stepCursor (fun b => b.end_) subB prev si with
          | error e => rw [hes, except_bind_error] at hok; exact absurd hok (by simp)
          | ok si' =>
              rw [hes, except_bind_ok] at hok
              cases het : buildWindows addB subB curr rest' ai' si' with
              | error e =>
                  rw [het, except_bind_error] at hok; exact absurd hok (by simp)
              | ok tail =>
                  rw [het, except_bind_ok] at hok
                  have hwins : wins = ⟨prev, curr, ai, ai', si, si'⟩ :: tail := by
                    cases hok; rfl
                  subst hwins
                  obtain ⟨hinva, hlea⟩ := stepCursor_ok hsa hpa hea
                  obtain ⟨hinvs, hles⟩ := stepCursor_ok hse hps hes
                  have hpc : prev ≤ curr := List.rel_of_pairwise_cons hpw (by simp)
                  have htail : WinsOK addB subB tail ai' si' := by
                    refine ih curr ai' si' tail (List.Pairwise.of_cons hpw)
                      (hinva.toPre hpc) (hinvs.toPre hpc) het
                  exact ⟨rfl, rfl, hlea, hles, hinva, hinvs, htail⟩

/-- Consecutive pairs of a time-point list. -/
def pairsOf (t : ℚ) : List ℚ → List (ℚ × ℚ)
  | [] => []
  | x :: xs => (t, x) :: pairsOf x xs

theorem buildWindows_times (addB subB : List Buff) :
    ∀ (rest : List ℚ) (prev : ℚ) (ai si : ℕ) (wins : List NWin),
      buildWindows addB subB prev rest ai si = Except.ok wins →
      wins.map (fun w => (w.t0, w.t1)) = pairsOf prev rest := by
  intro rest
  induction rest with
  | nil =>
      intro prev ai si wins hok
      cases hok
      rfl
  | cons curr rest' ih =>
      intro prev ai si wins hok
      unfold buildWindows at hok
      cases hea : stepCursor (fun b => b.start) addB prev ai with
      | error e => rw [hea, except_bind_error] at hok; exact absurd hok (by simp)
      | ok ai' =>
          rw [hea, except_bind_ok] at hok
          cases hes : stepCursor (fun b => b.end_) subB prev si with
          | error e => rw [hes, except_bind_error] at hok; exact absurd hok (by simp)
          | ok si' =>
              rw [hes, except_bind_ok] at hok
              cases het : buildWindows addB subB curr rest' ai' si' with
              | error e =>
                  rw [het, except_bind_error] at hok; exact absurd hok (by simp)
              | ok tail =>
                  rw [het, except_bind_ok] at hok
                  have hwins : wins = ⟨prev, curr, ai, ai', si, si'⟩ :: tail := by
                    cases hok; rfl
                  subst hwins
                  simp only [List.map_cons, pairsOf]
                  rw [ih curr ai' si' tail het]

theorem n2Windows_strict :
    ∀ (rest : List ℚ) (t : ℚ), List.Pairwise (· < ·) (t :: rest) →
      n2Windows t rest = pairsOf t rest := by
  intro rest
  induction rest with
  | nil => intro t _; rfl
  | cons x xs ih =>
      intro t hpw
      have htx : t < x := List.rel_of_pairwise_cons hpw (by simp)
      unfold n2Windows
      rw [if_neg (not_le.mpr htx)]
      have hx : List.Pairwise (· < ·) (x :: xs) := List.Pairwise.of_cons hpw
      rw [pairsOf, ih x hx]

theorem n2Windows_eq_pairsOf (t : ℚ) (rest : List ℚ)
    (hpw : List.Pairwise (· < ·) (t :: rest)) :
    n2Windows t (t :: rest) = pairsOf t rest := by
  have h1 : n2Windows t (t :: rest) = n2Windows t rest := by
    simp only [n2Windows, ge_iff_le, le_refl, if_true]
  rw [h1, n2Windows_strict rest t hpw]

theorem sortByStart_pairwise (buffs : List Buff) :
    (sortByStart buffs).Pairwise fun a b => a.start ≤ b.start := by
  have h := @List.sorted_mergeSort Buff
    (fun a b : Buff => decide (a.start ≤ b.start))
    (fun a b c hab hbc => by
      simp only [decide_eq_true_eq] at hab hbc ⊢
      exact le_trans hab hbc)
    (fun a b => by
      simp only [Bool.or_eq_true, decide_eq_true_eq]
      exact le_total a.start b.start)
    buffs
  exact h.imp fun hab => by simpa using hab

theorem sortByEnd_pairwise (buffs : List Buff) :
    (sortByEnd buffs).Pairwise fun a b => a.end_ ≤ b.end_ := by
  have h := @List.sorted_mergeSort Buff
    (fun a b : Buff => decide (a.end_ ≤ b.end_))
    (fun a b c hab hbc => by
      simp only [decide_eq_true_eq] at hab hbc ⊢
      exact le_trans hab hbc)
    (fun a b => by
      simp only [Bool.or_eq_true, decide_eq_true_eq]
      exact le_total a.end_ b.end_)
    buffs
  exact h.imp fun hab => by simpa using hab

theorem sortTimes_pairwise (l : List ℚ) :
    (sortTimes l).Pairwise (· ≤ ·) := by
  have h := @List.sorted_mergeSort ℚ
    (fun a b : ℚ => decide (a ≤ b))
    (fun a b c hab hbc => by
      simp only [decide_eq_true_eq] at hab hbc ⊢
      exact le_trans hab hbc)
    (fun a b => by
      simp only [Bool.or_eq_true, decide_eq_true_eq]
      exact le_total a b)
    l
  exact h.imp fun hab => by simpa using hab

theorem winsCache_step (addB subB : List Buff) (w : NWin)
    (hlea : w.a0 ≤ w.a1) (hles : w.s0 ≤ w.s1) :
    cacheStep addB subB
      (applyDelta baselineCache
        (deltaSum (addB.take w.a0) - deltaSum (subB.take w.s0))) w =
    applyDelta baselineCache
      (deltaSum (addB.take w.a1) - deltaSum (subB.take w.s1)) := by
  have htakeA : addB.take w.a1 =
      addB.take w.a0 ++ (addB.drop w.a0).take (w.a1 - w.a0) := by
    rw [← List.take_add]
    congr 1
    omega
  have htakeS : subB.take w.s1 =
      subB.take w.s0 ++ (subB.drop w.s0).take (w.s1 - w.s0) := by
    rw [← List.take_add]
    congr 1
    omega
  unfold cacheStep
  have hc1 : (if w.a1 > w.a0 then
        Cache.add_buffs_range
          (applyDelta baselineCache
            (deltaSum (addB.take w.a0) - deltaSum (subB.take w.s0)))
          addB w.a0 w.a1
      else
        applyDelta baselineCache
          (deltaSum (addB.take w.a0) - deltaSum (subB.take w.s0))) =
      applyDelta baselineCache
        (deltaSum (addB.take w.a1) - deltaSum (subB.take w.s0)) := by
    by_cases hgt : w.a1 > w.a0
    · rw [if_pos hgt, add_buffs_range_eq, applyDelta_applyDelta, htakeA,
        deltaSum_append]
      congr 1
      abel
    · have : w.a1 = w.a0 := by omega
      rw [if_neg hgt, this]
  rw [hc1]
  by_cases hgt : w.s1 > w.s0
  · rw [if_pos hgt, remove_buffs_range_eq, applyDelta_applyDelta, htakeS,
      deltaSum_append]
    congr 1
    abel
  · have : w.s1 = w.s0 := by omega
    rw [if_neg hgt, this]

theorem winsCache_take (addB subB : List Buff) :
    ∀ (wins : List NWin) (ai si : ℕ), WinsOK addB subB wins ai si →
      ∀ k (hk : k < wins.length),
        (wins.take (k + 1)).foldl (cacheStep addB subB)
          (applyDelta baselineCache
            (deltaSum (addB.take ai) - deltaSum (subB.take si))) =
        applyDelta baselineCache
          (deltaSum (addB.take (wins.get ⟨k, hk⟩).a1) -
            deltaSum (subB.take (wins.get ⟨k, hk⟩).s1)) := by
  intro wins
  induction wins with
  | nil => intro ai si _ k hk; exact absurd hk (by simp)
  | cons w ws ih =>
      intro ai si hok k hk
      obtain ⟨h0a, h0s, hlea, hles, hinva, hinvs, htail⟩ := hok
      subst h0a
      subst h0s
      have hstep := winsCache_step addB subB w hlea hles
      cases k with
      | zero =>
          simp only [List.take_succ_cons, List.take_zero, List.foldl_cons,
            List.foldl_nil, List.get]
          exact hstep
      | succ k' =>
          simp only [List.take_succ_cons, List.foldl_cons, List.get]
          rw [hstep]
          exact ih w.a1 w.s1 htail k' (by simpa using hk)

theorem take_eq_filter_of_inv (key : Buff → XR) (l : List Buff) (t : ℚ)
    (i : ℕ) (hinv : CursorInv key l t i) :
    l.take i = l.filter fun b => decide (key b ≤ XR.fin t) := by
  refine take_eq_filter_of_iff _ l i hinv.1 ?_
  intro j hj
  rw [decide_eq_true_eq]
  exact hinv.2 j hj

theorem window_cache_eq_filter (buffs : List Buff) (t : ℚ)
    (hwf : ∀ b ∈ buffs, b.start < b.end_) (a1 s1 : ℕ)
    (hinva : CursorInv (fun b => b.start) (sortByStart buffs) t a1)
    (hinvs : CursorInv (fun b => b.end_) (sortByEnd buffs) t s1) :
    applyDelta baselineCache
      (deltaSum ((sortByStart buffs).take a1) -
        deltaSum ((sortByEnd buffs).take s1)) =
    generate_cache (buffs.filter (activeAt t)) := by
  have hA : deltaSum ((sortByStart buffs).take a1) =
      deltaSum (buffs.filter fun b => decide (b.start ≤ XR.fin t)) := by
    rw [take_eq_filter_of_inv _ _ _ _ hinva]
    exact deltaSum_perm
      (List.Perm.filter _ (List.mergeSort_perm buffs _))
  have hS : deltaSum ((sortByEnd buffs).take s1) =
      deltaSum (buffs.filter fun b => decide (b.end_ ≤ XR.fin t)) := by
    rw [take_eq_filter_of_inv _ _ _ _ hinvs]
    exact deltaSum_perm
      (List.Perm.filter _ (List.mergeSort_perm buffs _))
  have hsplit := deltaSum_filter_split
    (fun b => decide (b.start ≤ XR.fin t))
    (fun b => decide (b.end_ ≤ XR.fin t)) buffs
  have hqp : buffs.filter (fun b => decide (b.end_ ≤ XR.fin t)) =
      buffs.filter (fun b =>
        decide (b.start ≤ XR.fin t) && decide (b.end_ ≤ XR.fin t)) := by
    refine (List.filter_congr ?_).symm
    intro b hb
    by_cases hq : b.end_ ≤ XR.fin t
    · have hp : b.start ≤ XR.fin t := le_of_lt (lt_of_lt_of_le (hwf b hb) hq)
      simp [hp, hq]
    · simp [hq]
  have hactive : buffs.filter (fun b =>
      decide (b.start ≤ XR.fin t) && !decide (b.end_ ≤ XR.fin t)) =
      buffs.filter (activeAt t) := by
    refine List.filter_congr ?_
    intro b _
    rw [Bool.eq_iff_iff]
    simp [activeAt, not_le, ge_iff_le]
  rw [hA, hS, hsplit, hqp, hactive, generate_cache_eq]
  congr 1
  abel

theorem winsOK_get (addB subB : List Buff) :
    ∀ (wins : List NWin) (ai si : ℕ), WinsOK addB subB wins ai si →
      ∀ k (hk : k < wins.length),
        CursorInv (fun b => b.start) addB (wins.get ⟨k, hk⟩).t0
            (wins.get ⟨k, hk⟩).a1 ∧
        CursorInv (fun b => b.end_) subB (wins.get ⟨k, hk⟩).t0
            (wins.get ⟨k, hk⟩).s1 := by
  intro wins
  induction wins with
  | nil => intro ai si _ k hk; exact absurd hk (by simp)
  | cons w ws ih =>
      intro ai si hok k hk
      obtain ⟨-, -, -, -, hinva, hinvs, htail⟩ := hok
      cases k with
      | zero => exact ⟨hinva, hinvs⟩
      | succ k' => exact ih w.a1 w.s1 htail k' (by simpa using hk)

/-- C4: at every sub-interval of the linearithmic sweep, the running
aggregate — after the sub-interval's add range and remove range have been
applied — equals the aggregate the quadratic sweep builds from scratch:
baseline plus the contribution (stacks included) of exactly the buffs
whose `[start, end)` interval contains the sub-interval's start point
`t0`.  The hypotheses are the sweep's own construction: the sorted
time-point list and a successful window/cursor table build. -/
theorem claim_C4_running_aggregate_invariant
    (buffs : List Buff) (window_start window_end : XR)
    (hwf : ∀ b ∈ buffs, b.start < b.end_)
    (t0 : ℚ) (rest : List ℚ)
    (htp : sortTimes (get_unique_times (sortByStart buffs) window_start window_end) =
      t0 :: rest)
    (wins : List NWin)
    (hbuild : buildWindows (sortByStart buffs) (sortByEnd buffs) t0 rest 0 0 =
      Except.ok wins)
    (k : ℕ) (hk : k < wins.length) :
    (wins.take (k + 1)).foldl (cacheStep (sortByStart buffs) (sortByEnd buffs))
        (generate_cache []) =
      generate_cache (buffs.filter (activeAt (wins.get ⟨k, hk⟩).t0)) := by
  have hpw : List.Pairwise (· ≤ ·) (t0 :: rest) := by
    rw [← htp]
    exact sortTimes_pairwise _
  have hpre0a : CursorPre (fun b => b.start) (sortByStart buffs) t0 0 :=
    ⟨Nat.zero_le _, fun j hj hj0 => absurd hj0 (Nat.not_lt_zero j)⟩
  have hpre0s : CursorPre (fun b => b.end_) (sortByEnd buffs) t0 0 :=
    ⟨Nat.zero_le _, fun j hj hj0 => absurd hj0 (Nat.not_lt_zero j)⟩
  have hok := buildWindows_ok (sortByStart buffs) (sortByEnd buffs)
    (sortByStart_pairwise buffs) (sortByEnd_pairwise buffs)
    rest t0 0 0 wins hpw hpre0a hpre0s hbuild
  have hbase : generate_cache [] =
      applyDelta baselineCache
        (deltaSum ((sortByStart buffs).take 0) -
          deltaSum ((sortByEnd buffs).take 0)) := by
    rw [List.take_zero, List.take_zero, deltaSum_nil, sub_zero, applyDelta_zero]
    rfl
  rw [hbase, winsCache_take (sortByStart buffs) (sortByEnd buffs) wins 0 0 hok k hk]
  obtain ⟨hinva, hinvs⟩ := winsOK_get (sortByStart buffs) (sortByEnd buffs)
    wins 0 0 hok k hk
  exact window_cache_eq_filter buffs (wins.get ⟨k, hk⟩).t0 hwf
    (wins.get ⟨k, hk⟩).a1 (wins.get ⟨k, hk⟩).s1 hinva hinvs

/-- C4 witness: two buffs `[0,10)` and `[10,12)`, window `[0,10]`,
first (and only) sub-interval `[0, 10)`. -/
theorem claim_C4_witness :
    (∀ b ∈ [buffA, buffSentinel], b.start < b.end_) ∧
    (([⟨0, 10, 0, 1, 0, 0⟩] : List NWin).take 1).foldl
        (cacheStep (sortByStart [buffA, buffSentinel])
          (sortByEnd [buffA, buffSentinel]))
        (generate_cache []) =
      generate_cache ([buffA, buffSentinel].filter (activeAt 0)) := by
  refine ⟨by decide, ?_⟩
  exact claim_C4_running_aggregate_invariant [buffA, buffSentinel]
    (XR.fin 0) (XR.fin 10) (by decide) 0 [10]
    (by with_unfolding_all rfl)
    [⟨0, 10, 0, 1, 0, 0⟩] (by with_unfolding_all rfl) 0 (by simp)

/-! ## Time-point list: membership, nodup, and order-insensitivity -/

theorem gutAdd_mem (ws we : XR) (acc : List ℚ) (v : XR) (x : ℚ) :
    x ∈ gutAdd ws we acc v ↔
      x ∈ acc ∨ (v = XR.fin x ∧ ws < XR.fin x ∧ XR.fin x < we) := by
  cases v with
  | ninf => simp [gutAdd]
  | pinf => simp [gutAdd]
  | fin s =>
      simp only [gutAdd]
      by_cases hc : ws < XR.fin s ∧ XR.fin s < we ∧ s ∉ acc
      · rw [if_pos hc]
        simp only [List.mem_append, List.mem_singleton, XR.fin.injEq]
        constructor
        · rintro (hx | rfl)
          · exact Or.inl hx
          · exact Or.inr ⟨rfl, hc.1, hc.2.1⟩
        · rintro (hx | ⟨rfl, -, -⟩)
          · exact Or.inl hx
          · exact Or.inr rfl
      · rw [if_neg hc]
        constructor
        · exact Or.inl
        · rintro (hx | ⟨heq, h1, h2⟩)
          · exact hx
          · injection heq with hsx
            subst hsx
            by_cases hmem : s ∈ acc
            · exact hmem
            · exact absurd ⟨h1, h2, hmem⟩ hc

theorem gut_fold_mem (ws we : XR) (x : ℚ) :
    ∀ (l : List Buff) (acc : List ℚ),
      (x ∈ l.foldl (gutStep ws we) acc ↔
        x ∈ acc ∨ ∃ b ∈ l,
          (b.start = XR.fin x ∨ b.end_ = XR.fin x) ∧
          ws < XR.fin x ∧ XR.fin x < we)
  | [], acc => by simp
  | b :: bs, acc => by
      rw [List.foldl_cons, gut_fold_mem ws we x bs]
      unfold gutStep
      rw [gutAdd_mem, gutAdd_mem]
      constructor
      · rintro (((hx | hs) | he) | ⟨b', hb', hcond⟩)
        · exact Or.inl hx
        · exact Or.inr ⟨b, by simp, Or.inl hs.1, hs.2⟩
        · exact Or.inr ⟨b, by simp, Or.inr he.1, he.2⟩
        · exact Or.inr ⟨b', by simp [hb'], hcond⟩
      · rintro (hx | ⟨b', hb', hside, h1, h2⟩)
        · exact Or.inl (Or.inl (Or.inl hx))
        · rcases List.mem_cons.mp hb' with rfl | hmem
          · rcases hside with hs | he
            · exact Or.inl (Or.inl (Or.inr ⟨hs, h1, h2⟩))
            · exact Or.inl (Or.inr ⟨he, h1, h2⟩)
          · exact Or.inr ⟨b', hmem, hside, h1, h2⟩

theorem get_unique_times_mem (l : List Buff) (ws we : XR) (x : ℚ) :
    x ∈ get_unique_times l ws we ↔
      x ∈ gutInit ws we ∨ ∃ b ∈ l,
        (b.start = XR.fin x ∨ b.end_ = XR.fin x) ∧
        ws < XR.fin x ∧ XR.fin x < we := by
  unfold get_unique_times
  exact gut_fold_mem ws we x l (gutInit ws we)

theorem gutAdd_nodup (ws we : XR) (acc : List ℚ) (v : XR)
    (h : acc.Nodup) : (gutAdd ws we acc v).Nodup := by
  cases v with
  | ninf => exact h
  | pinf => exact h
  | fin s =>
      simp only [gutAdd]
      by_cases hc : ws < XR.fin s ∧ XR.fin s < we ∧ s ∉ acc
      · rw [if_pos hc]
        simpa [List.nodup_append] using ⟨h, hc.2.2⟩
      · rwa [if_neg hc]

theorem gut_fold_nodup (ws we : XR) :
    ∀ (l : List Buff) (acc : List ℚ), acc.Nodup →
      (l.foldl (gutStep ws we) acc).Nodup
  | [], acc, h => h
  | b :: bs, acc, h => by
      rw [List.foldl_cons]
      exact gut_fold_nodup ws we bs _
        (gutAdd_nodup ws we _ b.end_ (gutAdd_nodup ws we acc b.start h))

theorem get_unique_times_nodup (l : List Buff) (ws we : XR) (hlt : ws < we) :
    (get_unique_times l ws we).Nodup := by
  unfold get_unique_times
  refine gut_fold_nodup ws we l _ ?_
  unfold gutInit
  cases ws with
  | ninf => cases we <;> simp
  | pinf => cases we <;> simp
  | fin a =>
      cases we with
      | ninf => simp
      | pinf => simp
      | fin b =>
          have : a ≠ b := by
            intro h
            subst h
            exact absurd hlt (lt_irrefl _)
          simp [this]

theorem sortTimes_mem (l : List ℚ) (x : ℚ) : x ∈ sortTimes l ↔ x ∈ l :=
  (List.mergeSort_perm l _).mem_iff

theorem sortTimes_nodup (l : List ℚ) (h : l.Nodup) : (sortTimes l).Nodup :=
  (List.mergeSort_perm l _).symm.nodup h

/-- Sorting the collected time points does not depend on the order of the
buff list: the quadratic sweep collects them from the caller's list, the
linearithmic sweep from the start-sorted list, and both end up with the
same sorted time-point sequence (for a non-degenerate window). -/
theorem sortTimes_gut_perm {l1 l2 : List Buff} (hperm : l1.Perm l2)
    (ws we : XR) (hlt : ws < we) :
    sortTimes (get_unique_times l1 ws we) =
      sortTimes (get_unique_times l2 ws we) := by
  have hnd1 : (sortTimes (get_unique_times l1 ws we)).Nodup :=
    sortTimes_nodup _ (get_unique_times_nodup l1 ws we hlt)
  have hnd2 : (sortTimes (get_unique_times l2 ws we)).Nodup :=
    sortTimes_nodup _ (get_unique_times_nodup l2 ws we hlt)
  have hmem : ∀ x : ℚ, x ∈ sortTimes (get_unique_times l1 ws we) ↔
      x ∈ sortTimes (get_unique_times l2 ws we) := by
    intro x
    rw [sortTimes_mem, sortTimes_mem, get_unique_times_mem,
      get_unique_times_mem]
    constructor
    · rintro (hi | ⟨b, hb, hc⟩)
      · exact Or.inl hi
      · exact Or.inr ⟨b, hperm.mem_iff.mp hb, hc⟩
    · rintro (hi | ⟨b, hb, hc⟩)
      · exact Or.inl hi
      · exact Or.inr ⟨b, hperm.mem_iff.mpr hb, hc⟩
  exact List.eq_of_perm_of_sorted
    ((List.perm_ext_iff_of_nodup hnd1 hnd2).mpr hmem)
    (sortTimes_pairwise _) (sortTimes_pairwise _)

theorem pairwise_lt_of_le_nodup {l : List ℚ}
    (hle : l.Pairwise (· ≤ ·)) (hnd : l.Nodup) : l.Pairwise (· < ·) :=
  (hle.and hnd).imp fun h => lt_of_le_of_ne h.1 h.2

theorem nlogn_fold_eq (damage_tags : List DamageTag) (attack defense : ℚ)
    (normalize : Bool) (buffs : List Buff)
    (hwf : ∀ b ∈ buffs, b.start < b.end_) :
    ∀ (wins : List NWin) (ai si : ℕ) (res : List ℚ),
      WinsOK (sortByStart buffs) (sortByEnd buffs) wins ai si →
      (wins.foldlM (fun (st : Cache × List ℚ) w => do
          let c' := cacheStep (sortByStart buffs) (sortByEnd buffs) st.1 w
          let cs ← windowContribs damage_tags attack defense normalize c' w.t0 w.t1
          pure (c', zipAdd st.2 cs))
        (applyDelta baselineCache
          (deltaSum ((sortByStart buffs).take ai) -
            deltaSum ((sortByEnd buffs).take si)), res)).map
          (fun st : Cache × List ℚ => st.2) =
      (wins.map fun w => (w.t0, w.t1)).foldlM (fun res w => do
          let cache := generate_cache (buffs.filter (activeAt w.1))
          let cs ← windowContribs damage_tags attack defense normalize cache w.1 w.2
          pure (zipAdd res cs)) res := by
  intro wins
  induction wins with
  | nil => intro ai si res _; rfl
  | cons w ws ih =>
      intro ai si res hok
      obtain ⟨h0a, h0s, hlea, hles, hinva, hinvs, htail⟩ := hok
      subst h0a
      subst h0s
      have hstep := winsCache_step (sortByStart buffs) (sortByEnd buffs) w hlea hles
      have hfilter := window_cache_eq_filter buffs w.t0 hwf w.a1 w.s1 hinva hinvs
      simp only [List.foldlM_cons, List.map_cons]
      rw [hstep]
      have hcseq : windowContribs damage_tags attack defense normalize
          (applyDelta baselineCache
            (deltaSum ((sortByStart buffs).take w.a1) -
              deltaSum ((sortByEnd buffs).take w.s1))) w.t0 w.t1 =
          windowContribs damage_tags attack defense normalize
            (generate_cache (buffs.filter (activeAt w.t0))) w.t0 w.t1 := by
        rw [hfilter]
      rw [hcseq]
      cases hcs : windowContribs damage_tags attack defense normalize
          (generate_cache (buffs.filter (activeAt w.t0))) w.t0 w.t1 with
      | error e => rfl
      | ok cs =>
          rw [except_bind_ok, except_bind_ok, pure_bind]
          exact ih w.a1 w.s1 (zipAdd res cs) htail

theorem except_bind_pure_proj (x : Except String (Cache × List ℚ)) :
    (x >>= fun st => pure st.2) = x.map (fun st : Cache × List ℚ => st.2) := by
  cases x <;> rfl

/-- C1 (amended): whenever the linearithmic sweep runs to completion
(returns without raising) on a well-formed buff list and a non-degenerate
window (`window_start < window_end`), the quadratic sweep returns exactly
the same per-tag vector, and both `accumulate=True` totals agree as well
— the results are equal as rationals, hence in particular within any
`isclose` tolerance. -/
theorem claim_C1_amended (damage_tags : List DamageTag) (attack defense : ℚ)
    (buffs : List Buff) (window_start window_end : XR) (normalize : Bool)
    (hwf : ∀ b ∈ buffs, b.start < b.end_)
    (hlt : window_start < window_end) (v : List ℚ)
    (hok : compute_dps_window_nlogn damage_tags attack defense buffs
      window_start window_end normalize = Except.ok v) :
    compute_dps_window_n2 damage_tags attack defense buffs
        window_start window_end normalize = Except.ok v ∧
    compute_dps_window_n2_total damage_tags attack defense buffs
        window_start window_end normalize = Except.ok v.sum ∧
    compute_dps_window_nlogn_total damage_tags attack defense buffs
        window_start window_end normalize = Except.ok v.sum := by
  have hmain : compute_dps_window_n2 damage_tags attack defense buffs
      window_start window_end normalize = Except.ok v := by
    unfold compute_dps_window_nlogn at hok
    cases htp : sortTimes (get_unique_times (sortByStart buffs)
        window_start window_end) with
    | nil =>
        rw [htp] at hok
        exact absurd hok (by simp)
    | cons t0 rest =>
        rw [htp] at hok
        dsimp only at hok
        have hple : List.Pairwise (· ≤ ·) (t0 :: rest) := by
          rw [← htp]
          exact sortTimes_pairwise _
        have hnd : (t0 :: rest).Nodup := by
          rw [← htp]
          exact sortTimes_nodup _
            (get_unique_times_nodup (sortByStart buffs) window_start
              window_end hlt)
        have hplt : List.Pairwise (· < ·) (t0 :: rest) :=
          pairwise_lt_of_le_nodup hple hnd
        cases hbuild : buildWindows (sortByStart buffs) (sortByEnd buffs)
            t0 rest 0 0 with
        | error e =>
            rw [hbuild, except_bind_error] at hok
            exact absurd hok (by simp)
        | ok wins =>
            rw [hbuild, except_bind_ok, except_bind_pure_proj] at hok
            have hpre0a : CursorPre (fun b => b.start) (sortByStart buffs) t0 0 :=
              ⟨Nat.zero_le _, fun j hj hj0 => absurd hj0 (Nat.not_lt_zero j)⟩
            have hpre0s : CursorPre (fun b => b.end_) (sortByEnd buffs) t0 0 :=
              ⟨Nat.zero_le _, fun j hj hj0 => absurd hj0 (Nat.not_lt_zero j)⟩
            have hwinsok := buildWindows_ok (sortByStart buffs)
              (sortByEnd buffs) (sortByStart_pairwise buffs)
              (sortByEnd_pairwise buffs) rest t0 0 0 wins hple hpre0a
              hpre0s hbuild
            have htimes := buildWindows_times (sortByStart buffs)
              (sortByEnd buffs) rest t0 0 0 wins hbuild
            have hbase : (applyDelta baselineCache
                (deltaSum ((sortByStart buffs).take 0) -
                  deltaSum ((sortByEnd buffs).take 0))) = generate_cache [] := by
              rw [List.take_zero, List.take_zero, deltaSum_nil, sub_zero,
                applyDelta_zero]
              rfl
            have hfold := nlogn_fold_eq damage_tags attack defense normalize
              buffs hwf wins 0 0 (List.replicate damage_tags.length 0) hwinsok
            rw [hbase, htimes] at hfold
            rw [hfold] at hok
            have htpn2 : sortTimes (get_unique_times buffs window_start
                window_end) = t0 :: rest := by
              rw [sortTimes_gut_perm (List.mergeSort_perm buffs
                (fun a b => decide (a.start ≤ b.start))).symm window_start
                window_end hlt]
              exact htp
            unfold compute_dps_window_n2
            rw [htpn2]
            dsimp only
            rw [n2Windows_eq_pairsOf t0 rest hplt]
            exact hok
  refine ⟨hmain, ?_, ?_⟩
  · unfold compute_dps_window_n2_total
    rw [hmain]
    rfl
  · unfold compute_dps_window_nlogn_total
    rw [hok]
    rfl

/-- C1 witness: a configuration where the linearithmic sweep does
complete — buff `[0,10)` plus a sentinel buff `[10,12)` that keeps both
cursors in bounds — and both algorithms return `[129]`. -/
theorem claim_C1_witness :
    compute_dps_window_n2 [tagAt5] 100 0 [buffA, buffSentinel]
        (XR.fin 0) (XR.fin 10) true = Except.ok [129] ∧
    compute_dps_window_n2_total [tagAt5] 100 0 [buffA, buffSentinel]
        (XR.fin 0) (XR.fin 10) true = Except.ok 129 ∧
    compute_dps_window_nlogn_total [tagAt5] 100 0 [buffA, buffSentinel]
        (XR.fin 0) (XR.fin 10) true = Except.ok 129 := by
  have h := claim_C1_amended [tagAt5] 100 0 [buffA, buffSentinel]
    (XR.fin 0) (XR.fin 10) true (by decide) (by decide) [129]
    (by with_unfolding_all rfl)
  simpa using h
